import Mathlib

/-!
Verification of the proof-of-work consensus core: difficulty retargeting
(`src/pow.cpp`) and Cuckoo Cycle proof verification (`src/crypto/cuckoo.cpp`).

Machine integers are embedded as `Nat` with explicit reductions modulo
`2 ^ 32`, `2 ^ 64` and `2 ^ 256` at the points where the C++ code performs
fixed-width arithmetic.  Fallible operations (null-pointer dereference and
failed `assert`) are embedded as `Option`, with `none` marking a failure.
-/

/-! ## SipHash-2-4 (from CCuckooCycleVerfier, src/crypto/cuckoo.cpp) -/

/-- State of the four 64-bit SipHash words. -/
structure SipState where
  v0 : Nat
  v1 : Nat
  v2 : Nat
  v3 : Nat
deriving Repr, DecidableEq

/-- The two 64-bit SipHash keys (cuckoo_cycle::siphash_keys). -/
structure SipKeys where
  k0 : Nat
  k1 : Nat
deriving Repr, DecidableEq

/-- 64-bit addition (wrapping). -/
def add64 (a b : Nat) : Nat := (a + b) % 2 ^ 64

/-- The ROTL macro of cuckoo.cpp: 64-bit rotate left. -/
def rotl64 (x b : Nat) : Nat := ((x <<< b) ||| (x >>> (64 - b))) % 2 ^ 64

/-- The SIPROUND macro of cuckoo.cpp, operation for operation. -/
def sipround (s : SipState) : SipState :=
  let v0 := add64 s.v0 s.v1
  let v2 := add64 s.v2 s.v3
  let v1 := rotl64 s.v1 13
  let v3 := rotl64 s.v3 16
  let v1 := v1 ^^^ v0
  let v3 := v3 ^^^ v2
  let v0 := rotl64 v0 32
  let v2 := add64 v2 v1
  let v0 := add64 v0 v3
  let v1 := rotl64 v1 17
  let v3 := rotl64 v3 21
  let v1 := v1 ^^^ v2
  let v3 := v3 ^^^ v0
  let v2 := rotl64 v2 32
  ⟨v0, v1, v2, v3⟩

/-- CCuckooCycleVerfier::siphash24: the cuckoo variant of SipHash-2-4 on a
single 64-bit word (2 compression rounds on the nonce, 0xff into v2,
4 finalization rounds, xor of the four words). -/
def siphash24 (keys : SipKeys) (nonce : Nat) : Nat :=
  let v0 := keys.k0 ^^^ 0x736f6d6570736575
  let v1 := keys.k1 ^^^ 0x646f72616e646f6d
  let v2 := keys.k0 ^^^ 0x6c7967656e657261
  let v3 := keys.k1 ^^^ 0x7465646279746573 ^^^ nonce
  let s := sipround (sipround ⟨v0, v1, v2, v3⟩)
  let s : SipState := ⟨s.v0 ^^^ nonce, s.v1, s.v2 ^^^ 0xff, s.v3⟩
  let s := sipround (sipround (sipround (sipround s)))
  (s.v0 ^^^ s.v1) ^^^ (s.v2 ^^^ s.v3)

/-- Initial SipHash state from the two keys and the canonical constants. -/
def sipInitState (keys : SipKeys) : SipState :=
  ⟨keys.k0 ^^^ 0x736f6d6570736575, keys.k1 ^^^ 0x646f72616e646f6d,
   keys.k0 ^^^ 0x6c7967656e657261, keys.k1 ^^^ 0x7465646279746573⟩

/-- One SipHash-2-4 compression step for a message word: xor into v3,
two rounds, xor into v0. -/
def sipCompress (s : SipState) (m : Nat) : SipState :=
  let s : SipState := ⟨s.v0, s.v1, s.v2, s.v3 ^^^ m⟩
  let s := sipround (sipround s)
  ⟨s.v0 ^^^ m, s.v1, s.v2, s.v3⟩

/-- SipHash-2-4 finalization: 0xff into v2, four rounds, xor of the words. -/
def sipFinal (s : SipState) : Nat :=
  let s : SipState := ⟨s.v0, s.v1, s.v2 ^^^ 0xff, s.v3⟩
  let s := sipround (sipround (sipround (sipround s)))
  (s.v0 ^^^ s.v1) ^^^ (s.v2 ^^^ s.v3)

/-- SipHash-2-4 over a list of 64-bit message words. -/
def siphashBlocks (keys : SipKeys) (ms : List Nat) : Nat :=
  sipFinal (ms.foldl sipCompress (sipInitState keys))

/-- Modelled from the spec: the standard SipHash-2-4 reference applied to an
8-byte little-endian message.  The reference pads every message with zero
bytes and a trailing length byte up to a multiple of 8 bytes, so an 8-byte
message consists of two words: the message word itself and the padding word
whose top byte is the message length 8. -/
def siphashRef8 (keys : SipKeys) (nonce : Nat) : Nat :=
  siphashBlocks keys [nonce, 8 * 2 ^ 56]

/-- Little-endian 64-bit load of 8 bytes of a byte buffer at an offset
(the `htole64(((uint64_t *)keybuf)[i])` of siphash_setkeys). -/
def le64at (buf : List Nat) (off : Nat) : Nat :=
  (List.range 8).foldl (fun a idx => a + buf.getD (off + idx) 0 * 256 ^ idx) 0

/-- CCuckooCycleVerfier::siphash_setkeys: the two keys are the first and
second little-endian 64-bit words of the 16-byte key buffer. -/
def siphash_setkeys (buf : List Nat) : SipKeys :=
  ⟨le64at buf 0, le64at buf 8⟩

/-- CCuckooCycleVerfier::sipnode: node id of one endpoint of the edge
generated by a nonce; `uorv` selects the partition and lands in the low bit. -/
def sipnode (keys : SipKeys) (nonce uorv edgemask : Nat) : Nat :=
  (((siphash24 keys ((2 * nonce + uorv) % 2 ^ 32) &&& edgemask) <<< 1) ||| uorv) % 2 ^ 32

/-! ## Cuckoo cycle verification (CCuckooCycleVerfier::verify) -/

/-- The seven result codes of cuckoo_cycle::cuckoo_verify_code used by
verify. -/
inductive VCode where
  | POW_OK
  | POW_TOO_BIG
  | POW_TOO_SMALL
  | POW_NON_MATCHING
  | POW_BRANCH
  | POW_DEAD_END
  | POW_SHORT_CYCLE
deriving Repr, DecidableEq

/-- The uvs array of verify: `uvs[2n] = sipnode(nonces[n],0)` and
`uvs[2n+1] = sipnode(nonces[n],1)`, expressed as a function of the index. -/
def mkUvs (keys : SipKeys) (nonces : Nat → Nat) (edgemask : Nat) : Nat → Nat :=
  fun m => sipnode keys (nonces (m / 2)) (m % 2) edgemask

/-- Range and ascending-order scan of verify, from index `n` with `fuel`
indices left: `nonces[n] > edgemask` returns TOO_BIG,
`n && nonces[n] <= nonces[n-1]` returns TOO_SMALL. -/
def rocGo (nonces : Nat → Nat) (edgemask : Nat) : Nat → Nat → Option VCode
  | _, 0 => none
  | n, fuel + 1 =>
    if nonces n > edgemask then some VCode.POW_TOO_BIG
    else if n ≠ 0 ∧ nonces n ≤ nonces (n - 1) then some VCode.POW_TOO_SMALL
    else rocGo nonces edgemask (n + 1) fuel

/-- The range/order phase of verify over the 42 proof nonces. -/
def rangeOrderCheck (nonces : Nat → Nat) (edgemask : Nat) : Option VCode :=
  rocGo nonces edgemask 0 42

/-- The xor accumulators of verify: `xor0` over the even-indexed and `xor1`
over the odd-indexed uvs entries, combined with `xor0 | xor1`. -/
def xorCheck (uvs : Nat → Nat) : Nat :=
  ((List.range 42).foldl (fun a n => a ^^^ uvs (2 * n)) 0) |||
    ((List.range 42).foldl (fun a n => a ^^^ uvs (2 * n + 1)) 0)

/-- Result of one step of the cycle-following loop of verify. -/
inductive StepRes where
  | branch
  | deadEnd
  | next (m : Nat)
deriving Repr, DecidableEq

/-- The 41 indices visited by the inner scan of verify from position `i`:
`k = (k+2) % 84` until `k` returns to `i`. -/
def ringKs (i : Nat) : List Nat :=
  (List.range 41).map (fun t => (i + 2 * (t + 1)) % 84)

/-- The inner scan of verify with running match index `j`: a second match
returns BRANCH, no match leaves `j = i` (DEAD_END), a unique match `j`
moves the traversal to `j XOR 1`. -/
def scanGo (uvs : Nat → Nat) (i j : Nat) : List Nat → StepRes
  | [] => if j = i then StepRes.deadEnd else StepRes.next (j ^^^ 1)
  | k :: ks =>
    if uvs k = uvs i then
      (if j ≠ i then StepRes.branch else scanGo uvs i k ks)
    else scanGo uvs i j ks

/-- One full step of the cycle-following loop of verify at position `i`. -/
def scanStep (uvs : Nat → Nat) (i : Nat) : StepRes :=
  scanGo uvs i i (ringKs i)

/-- The do/while cycle-following loop of verify, with an explicit fuel
(`none` marks fuel exhaustion; `followCycle_isSome` below proves fuel 84 is
never exhausted).  Each iteration runs one scan at `i`, then either stops or
moves to `j XOR 1` incrementing the edge count `n`; on return to index 0 the
result is OK exactly when 42 edges were traversed. -/
def followCycle (uvs : Nat → Nat) : Nat → Nat → Nat → Option VCode
  | 0, _, _ => none
  | fuel + 1, i, n =>
    match scanStep uvs i with
    | StepRes.branch => some VCode.POW_BRANCH
    | StepRes.deadEnd => some VCode.POW_DEAD_END
    | StepRes.next m =>
      if m = 0 then
        some (if n + 1 = 42 then VCode.POW_OK else VCode.POW_SHORT_CYCLE)
      else followCycle uvs fuel m (n + 1)

/-- CCuckooCycleVerfier::verify over the 42-entry nonce array (given as a
function on indices 0..41), the 16-byte key buffer and edgebits. -/
def verify (nonces : Nat → Nat) (buf : List Nat) (edgebits : Nat) : Option VCode :=
  let nedges := 2 ^ edgebits
  let edgemask := nedges - 1
  let keys := siphash_setkeys buf
  match rangeOrderCheck nonces edgemask with
  | some e => some e
  | none =>
    let uvs := mkUvs keys nonces edgemask
    if xorCheck uvs ≠ 0 then some VCode.POW_NON_MATCHING
    else followCycle uvs 84 0 0

/-- The index move of one traversal step, viewed in isolation: `some m`
when the scan finds a unique match and moves to `m = j XOR 1`, `none` when
it exits with BRANCH or DEAD_END. -/
def stepNext (uvs : Nat → Nat) (i : Nat) : Option Nat :=
  match scanStep uvs i with
  | StepRes.next m => some m
  | _ => none

/-- The t-th position of the traversal of `followCycle` starting at `i`,
`none` once a BRANCH or DEAD_END exit happened strictly earlier. -/
def iterPos (uvs : Nat → Nat) (i : Nat) : Nat → Option Nat
  | 0 => some i
  | t + 1 => (iterPos uvs i t).bind (stepNext uvs)

/-- The traversal from `i` stops during step `t+1`: after `t` moves it sits
at a position whose scan exits with BRANCH or DEAD_END, or moves back to
index 0. -/
def stopsAt (uvs : Nat → Nat) (i t : Nat) : Prop :=
  ∃ k, iterPos uvs i t = some k ∧
    (scanStep uvs k = StepRes.branch ∨ scanStep uvs k = StepRes.deadEnd ∨
      scanStep uvs k = StepRes.next 0)

/-- All positions among the 84 uvs entries other than `i` holding the same
node value as `i` (the match set of the claim, over all other 83 indices). -/
def matchesAll (uvs : Nat → Nat) (i : Nat) : List Nat :=
  (List.range 84).filter (fun k => decide (k ≠ i) && decide (uvs k = uvs i))

/-! ## Compact (nBits) encoding of 256-bit targets.

Modelled from the spec: the arith_uint256 library is an external
collaborator whose contract (§3) requires Bitcoin compact semantics
bit-for-bit.  The high byte of the compact word is an exponent E, the low
three bytes a 24-bit mantissa M whose bit 23 is the sign flag; the value is
M * 256^(E-3), and decode flags negative (sign bit with non-zero mantissa)
and overflow (exponent out of range for the mantissa width). -/

/-- Byte length of a value, with enough fuel for 256-bit inputs
(the `(bits() + 7) / 8` of arith_uint256::GetCompact). -/
def byteLenAux : Nat → Nat → Nat
  | 0, _ => 0
  | fuel + 1, x => if x = 0 then 0 else byteLenAux fuel (x / 256) + 1

/-- Byte length of a 256-bit value. -/
def byteLen (x : Nat) : Nat := byteLenAux 40 x

/-- Mantissa/exponent packing step of GetCompact: if the mantissa sign bit
(bit 23) is set, shift the mantissa down one byte and bump the exponent;
then place the exponent in the top byte. -/
def getCompactCore (sz c : Nat) : Nat :=
  let c2 := if c / 2 ^ 23 % 2 = 1 then c / 256 else c
  let sz2 := if c / 2 ^ 23 % 2 = 1 then sz + 1 else sz
  c2 + sz2 * 2 ^ 24

/-- Modelled from the spec: arith_uint256::GetCompact (to_compact).  The top
three bytes of the value become the mantissa; if the mantissa sign bit is
set, the mantissa is shifted down one byte and the exponent bumped. -/
def getCompact (x : Nat) : Nat :=
  let sz := byteLen x
  getCompactCore sz
    (if sz ≤ 3 then (x % 2 ^ 64) * 256 ^ (3 - sz) else (x / 256 ^ (sz - 3)) % 2 ^ 64)

/-- Decoded compact value together with the negative and overflow flags. -/
structure CompactDecode where
  val : Nat
  neg : Bool
  over : Bool
deriving Repr, DecidableEq

/-- Modelled from the spec: arith_uint256::SetCompact (decode), 256-bit
value with the negative and overflow flags. -/
def setCompact (c : Nat) : CompactDecode :=
  let sz := c / 2 ^ 24
  let w := c % 2 ^ 23
  let v := if sz ≤ 3 then w / 256 ^ (3 - sz) else w * 256 ^ (sz - 3) % 2 ^ 256
  { val := v
    neg := decide (w ≠ 0) && decide (c / 2 ^ 23 % 2 = 1)
    over := decide (w ≠ 0) &&
      (decide (sz > 34) || (decide (w > 0xff) && decide (sz > 33)) ||
        (decide (w > 0xffff) && decide (sz > 32))) }

/-- Decoded compact value (the arith_uint256 produced by SetCompact). -/
def setCompactValue (c : Nat) : Nat := (setCompact c).val

/-! ## Chain index model.

Modelled from the spec: the chain index (§3 ChainIndexEntry) is an external
collaborator supplying `height`, `time`, `nBits`, a back-link toward
genesis, `get_ancestor(h)` returning the ancestor at absolute height `h` or
none, and `median_time_past()` returning the median of the last 11
timestamps.  A chain index pointer is embedded as a `List BIdx` whose head
is the entry itself and whose tail is the chain below it; `[]` is the null
pointer. -/

/-- One chain index entry (the fields of CBlockIndex used by pow.cpp). -/
structure BIdx where
  nHeight : Int
  nTime : Int
  nBits : Nat
deriving Repr, DecidableEq

/-- Walk toward genesis for the entry at absolute height `h`. -/
def ancestorAt : List BIdx → Int → Option (List BIdx)
  | [], _ => none
  | e :: rest, h => if e.nHeight = h then some (e :: rest) else ancestorAt rest h

/-- Modelled from the spec: CBlockIndex::GetAncestor, none when the height
is below zero or above the entry. -/
def GetAncestor (c : List BIdx) (h : Int) : Option (List BIdx) :=
  match c with
  | [] => none
  | e :: rest => if h > e.nHeight ∨ h < 0 then none else ancestorAt (e :: rest) h

/-- Modelled from the spec: CBlockIndex::GetMedianTimePast, the median of
the timestamps of the entry and its 10 nearest ancestors (sorted, middle
index count / 2). -/
def medianTimePast (c : List BIdx) : Int :=
  let ts := (c.take 11).map (fun e => e.nTime)
  (ts.insertionSort (fun a b => a ≤ b)).getD (ts.length / 2) 0

/-- Consensus::Params fields used by pow.cpp.  The two 256-bit limits are
stored as their integer values. -/
structure Params where
  powLimit : Nat
  cuckooPowLimit : Nat
  nPowTargetTimespan : Int
  nPowTargetSpacing : Int
  fPowAllowMinDifficultyBlocks : Bool
  fPowNoRetargeting : Bool
  CuckooHardForkBlockHeight : Int
  cuckooGraphSize : Nat
deriving Repr

/-- Consensus::Params::DifficultyAdjustmentInterval
(nPowTargetTimespan / nPowTargetSpacing, C++ truncated division). -/
def DifficultyAdjustmentInterval (p : Params) : Int :=
  p.nPowTargetTimespan.tdiv p.nPowTargetSpacing

/-- Conversion of an int64_t to the 64-bit unsigned value arith_uint256
arithmetic receives it as. -/
def u64ofInt (x : Int) : Nat := (x % (2 ^ 64 : Int)).toNat

/-! ## Difficulty retargeting (src/pow.cpp) -/

/-- CalculateNextWorkRequired: clamp the actual timespan to
[timespan/4, timespan*4], rescale the decoded tip target by
multiply-then-divide in 256-bit arithmetic, cap at the active limit,
re-encode. -/
def CalculateNextWorkRequired (tip : BIdx) (nFirstBlockTime : Int) (p : Params) : Nat :=
  if p.fPowNoRetargeting then tip.nBits
  else
    let actual0 := tip.nTime - nFirstBlockTime
    let lo := p.nPowTargetTimespan.tdiv 4
    let hi := p.nPowTargetTimespan * 4
    let actual := if actual0 < lo then lo else if actual0 > hi then hi else actual0
    let currentBlockHeight := tip.nHeight + 1
    let limit := if currentBlockHeight ≥ p.CuckooHardForkBlockHeight
      then p.cuckooPowLimit else p.powLimit
    let bnNew := setCompactValue tip.nBits
    let bnNew := bnNew * u64ofInt actual % 2 ^ 256
    let bnNew := bnNew / u64ofInt p.nPowTargetTimespan
    let bnNew := if bnNew > limit then limit else bnNew
    getCompact bnNew

/-- The min-difficulty backward walk of GetNextWorkRequired: step toward
genesis while a predecessor exists, the height is off the interval boundary
and the nBits equal the active limit bits; return the nBits where it stops. -/
def minDiffWalk (p : Params) (nUsed : Nat) : List BIdx → Nat
  | [] => 0
  | [e] => e.nBits
  | e :: f :: rest =>
    if e.nHeight.tmod (DifficultyAdjustmentInterval p) ≠ 0 ∧ e.nBits = nUsed then
      minDiffWalk p nUsed (f :: rest)
    else e.nBits

/-- The emergency-retarget backward walk of GetNextWorkRequired: step toward
genesis while the decoded target is at most `current`; `none` embeds the
failing `assert(pindex)` when the walk runs off the chain. -/
def easierWalk (current : Nat) : List BIdx → Option Nat
  | [] => none
  | e :: rest =>
    if setCompactValue e.nBits ≤ current then easierWalk current rest
    else some e.nBits

/-- The emergency-retarget block of GetNextWorkRequired, entered with the
ancestor chain at height `tip.height - 6`: when the last 7 blocks share
nBits and their median-time-past span exceeds 36 block spacings, return the
compact midpoint of the tip target and the first strictly easier historical
target. -/
def emergencyRetarget (chain ancChain : List BIdx) (lastBits : Nat) (p : Params) : Option Nat :=
  match ancChain with
  | [] => none
  | anc :: _ =>
    let timePast := medianTimePast chain - medianTimePast ancChain
    let retargetLimit := p.nPowTargetSpacing * 6 * 6
    if lastBits = anc.nBits ∧ timePast > retargetLimit then
      let bnCurrent := setCompactValue lastBits
      match easierWalk bnCurrent ancChain with
      | none => none
      | some prevBits =>
        some (getCompact ((bnCurrent + setCompactValue prevBits) % 2 ^ 256 / 2))
    else some lastBits

/-- GetNextWorkRequired of src/pow.cpp.  `none` embeds a failed assertion or
null dereference (`assert(pindexLast != nullptr)`, `assert(pindexAnc)`,
`assert(pindex)`, `assert(nHeightFirst >= 0)`, `assert(pindexFirst)`). -/
def GetNextWorkRequired (chain : List BIdx) (pblockTime : Int) (p : Params) : Option Nat :=
  match chain with
  | [] => none
  | last :: rest =>
    let currentBlockHeight := last.nHeight + 1
    let usedPowLimit := if currentBlockHeight ≥ p.CuckooHardForkBlockHeight
      then p.cuckooPowLimit else p.powLimit
    let nUsedPowLimit := getCompact usedPowLimit
    if currentBlockHeight.tmod (DifficultyAdjustmentInterval p) ≠ 0 then
      if p.fPowAllowMinDifficultyBlocks then
        if pblockTime > last.nTime + p.nPowTargetSpacing * 2 then some nUsedPowLimit
        else some (minDiffWalk p nUsedPowLimit (last :: rest))
      else
        if currentBlockHeight > p.CuckooHardForkBlockHeight ∧ last.nBits ≠ nUsedPowLimit then
          match GetAncestor (last :: rest) (currentBlockHeight - 1 - 6) with
          | none => none
          | some ancChain => emergencyRetarget (last :: rest) ancChain last.nBits p
        else some last.nBits
    else if currentBlockHeight = p.CuckooHardForkBlockHeight then some nUsedPowLimit
    else
      let nHeightFirst := last.nHeight - (DifficultyAdjustmentInterval p - 1)
      if nHeightFirst < 0 then none
      else
        match GetAncestor (last :: rest) nHeightFirst with
        | none => none
        | some [] => none
        | some (firstE :: _) => some (CalculateNextWorkRequired last firstE.nTime p)

/-! ## Top-level proof-of-work check (src/pow.cpp) -/

/-- The header fields CheckProofOfWork consumes.  `headerHash` is the
standard double-SHA256 whole-header hash read as a little-endian 256-bit
integer, and `powKeyHash` is the single SHA256 of the canonical 80-byte
serialization; both hashes are produced by external collaborators and enter
the model as fields. -/
structure HeaderPoW where
  nBits : Nat
  isCuckooPow : Bool
  headerHash : Nat
  cuckooProof : Nat → Nat
  powKeyHash : List Nat

/-- CheckCuckooProofOfWork: verify the 42-nonce proof against the SHA256 of
the 80-byte serialized header with edgebits cuckooGraphSize - 1. -/
def CheckCuckooProofOfWork (h : HeaderPoW) (p : Params) : Bool :=
  decide (verify h.cuckooProof h.powKeyHash (p.cuckooGraphSize - 1) = some VCode.POW_OK)

/-- CheckProofOfWork of src/pow.cpp: decode nBits, range-check the target
against the active limit, validate the cuckoo proof for cuckoo headers, and
compare the whole-header hash against the target. -/
def CheckProofOfWork (h : HeaderPoW) (p : Params) : Bool :=
  let d := setCompact h.nBits
  if d.neg || decide (d.val = 0) || d.over ||
      decide (d.val > (if h.isCuckooPow then p.cuckooPowLimit else p.powLimit)) then
    false
  else if h.isCuckooPow && ! CheckCuckooProofOfWork h p then false
  else if decide (h.headerHash > d.val) then false
  else true

/-! ## Concrete inputs used by witnesses and counterexamples -/

/-- A 42-nonce proof (ascending, all at most 63) whose sipnode endpoints
under the all-zero key and edgebits 6 xor to zero on both partitions. -/
def wNonceList : List Nat :=
  [0, 1, 2, 4, 5, 9, 10, 11, 12, 14, 15, 18, 19, 20, 21, 22, 23, 24, 26, 27,
   28, 30, 33, 34, 36, 37, 38, 39, 40, 41, 42, 43, 44, 46, 51, 52, 54, 58,
   60, 61, 62, 63]

/-- The witness proof as a function on indices. -/
def wNonces : Nat → Nat := fun n => wNonceList.getD n 0

/-- An all-zero 16-byte key buffer. -/
def wZeroBuf : List Nat := List.replicate 16 0

/-- A proof whose first nonce is out of range and whose second nonce breaks
the ascending order. -/
def cBothViol : Nat → Nat := fun n => [64, 0].getD n 0

/-- Mainnet-like consensus parameters with the cuckoo hard fork at height 0
and both limits at the 0x1d00ffff target. -/
def cParams : Params :=
  { powLimit := 0xffff * 256 ^ 26
    cuckooPowLimit := 0xffff * 256 ^ 26
    nPowTargetTimespan := 1209600
    nPowTargetSpacing := 600
    fPowAllowMinDifficultyBlocks := false
    fPowNoRetargeting := false
    CuckooHardForkBlockHeight := 0
    cuckooGraphSize := 31 }

/-- A single-entry chain whose tip is at height 1 with nBits off the limit:
the emergency-retarget path dereferences the ancestor at height -5. -/
def cShortChain : List BIdx := [⟨1, 0, 0x1c00ffff⟩]

/-- A tip whose nBits decode to 2^255: the ordinary retarget wraps the
256-bit multiply and collapses the output target. -/
def cHugeTip : BIdx := ⟨0, 1209600, 0x21008000⟩

/-- An 8-block post-fork chain (heights 7 down to 0) whose last 7 blocks
share nBits 0x1c00ffff while block 0 has the easier 0x1d00ffff, with block
times 10000 apart so that the emergency retarget fires. -/
def cEmChain : List BIdx :=
  [⟨7, 70000, 0x1c00ffff⟩, ⟨6, 60000, 0x1c00ffff⟩, ⟨5, 50000, 0x1c00ffff⟩,
   ⟨4, 40000, 0x1c00ffff⟩, ⟨3, 30000, 0x1c00ffff⟩, ⟨2, 20000, 0x1c00ffff⟩,
   ⟨1, 10000, 0x1c00ffff⟩, ⟨0, 0, 0x1d00ffff⟩]

/-- Testnet-like parameters (min-difficulty blocks allowed). -/
def cTestParams : Params :=
  { cParams with fPowAllowMinDifficultyBlocks := true }

/-- A 3-block chain entirely at the limit bits with off-boundary heights,
for the min-difficulty walk down to the genesis entry. -/
def cMinDiffChain : List BIdx :=
  [⟨3, 1200, 0x1d00ffff⟩, ⟨2, 600, 0x1d00ffff⟩, ⟨1, 0, 0x1d00ffff⟩]

/-- A cuckoo-flagged header with target 0x1d00ffff carrying the witness
proof, a small whole-header hash and the all-zero key material. -/
def cHeader : HeaderPoW :=
  { nBits := 0x1d00ffff
    isCuckooPow := true
    headerHash := 12345
    cuckooProof := wNonces
    powKeyHash := wZeroBuf }

/-- Parameters for the header witness: graph size 7 gives edgebits 6. -/
def cHeaderParams : Params :=
  { cParams with cuckooGraphSize := 7 }

/-- Decidable statement that the emergency-retarget path of
GetNextWorkRequired reaches no failing assertion from the given tip: the
ancestor at height tip.height - 6 exists and, when the emergency condition
fires, the backward walk finds a strictly easier ancestor. -/
def emergencyAssertOk (last : BIdx) (rest : List BIdx) (p : Params) : Bool :=
  match GetAncestor (last :: rest) (last.nHeight + 1 - 1 - 6) with
  | none => false
  | some ancChain =>
    match ancChain with
    | [] => false
    | anc :: _ =>
      if last.nBits = anc.nBits ∧
          medianTimePast (last :: rest) - medianTimePast ancChain >
            p.nPowTargetSpacing * 6 * 6 then
        (easierWalk (setCompactValue last.nBits) ancChain).isSome
      else true

/-- A tip for the ordinary-retarget witness: height 0, time one full
timespan, nBits 0x1c00ffff (within the limit). -/
def cSaneTip : BIdx := ⟨0, 1209600, 0x1c00ffff⟩

/-- Parameters with the cuckoo hard fork exactly at the first interval
boundary, height 2016. -/
def cForkParams : Params :=
  { cParams with CuckooHardForkBlockHeight := 2016 }

/-- A tip at height 2015, one block below the fork boundary. -/
def cForkTip : BIdx := ⟨2015, 0, 0x1c00ffff⟩

-- ===================== THEOREMS =====================

/-- Claim C8 (counterexample): the cuckoo siphash24 is not bit-exact
against the standard SipHash-2-4 reference on an 8-byte message; they
differ already on the all-zero key and nonce 0. -/
theorem C8_counterexample : siphash24 ⟨0, 0⟩ 0 ≠ siphashRef8 ⟨0, 0⟩ 0 := by decide

/-- Claim C8 (amended): siphash24 initializes the four state words from
k0, k1 and the canonical constants, xors the nonce into v3 before 2
compression rounds and into v0 after them, xors 0xff into v2, runs 4
finalization rounds and returns (v0 ^ v1) ^ (v2 ^ v3) — i.e. it equals
SipHash-2-4 run on the single message word `nonce`, omitting the standard
length-padding block. -/
theorem C8_single_block (keys : SipKeys) (nonce : Nat) :
    siphash24 keys nonce = siphashBlocks keys [nonce] := rfl

/-- Claim C5: on an interval boundary that coincides with the cuckoo hard
fork height, GetNextWorkRequired returns the compact encoding of the cuckoo
pow limit regardless of the tip nBits and of any prior history. -/
theorem C5_fork_boundary (last : BIdx) (rest : List BIdx) (t : Int) (p : Params)
    (hb : (last.nHeight + 1).tmod (DifficultyAdjustmentInterval p) = 0)
    (hf : last.nHeight + 1 = p.CuckooHardForkBlockHeight) :
    GetNextWorkRequired (last :: rest) t p = some (getCompact p.cuckooPowLimit) := by
  simp only [GetNextWorkRequired]
  rw [if_neg (by simp [hb]), if_pos hf, if_pos hf.ge]

/-- Claim C5 witness: the fork-boundary reset at height 2016 on a concrete
chain. -/
theorem C5_witness :
    GetNextWorkRequired [cForkTip] 0 cForkParams =
      some (getCompact cForkParams.cuckooPowLimit) :=
  C5_fork_boundary cForkTip [] 0 cForkParams (by decide) (by decide)

/-- Helper: the min-difficulty walk returns the nBits of the last chain
entry (genesis) when every entry is off an interval boundary and carries
the limit bits. -/
theorem minDiffWalk_getLast (p : Params) (nUsed : Nat) :
    ∀ (l : List BIdx) (hne : l ≠ []),
      (∀ b ∈ l, b.nHeight.tmod (DifficultyAdjustmentInterval p) ≠ 0 ∧ b.nBits = nUsed) →
      minDiffWalk p nUsed l = (l.getLast hne).nBits
  | [], hne, _ => absurd rfl hne
  | [_], _, _ => rfl
  | e :: f :: rest, _, hall => by
    have he := hall e (by simp)
    rw [minDiffWalk, if_pos ⟨he.1, he.2⟩, List.getLast_cons (by simp)]
    exact minDiffWalk_getLast p nUsed (f :: rest) (by simp) fun b hb => hall b (by simp [hb])

/-- Claim C10: with min-difficulty blocks allowed, off an interval
boundary and the proposed time within twice the spacing, the backward walk
of GetNextWorkRequired stops at the entry with no predecessor and returns
its nBits, even when every entry (genesis included) carries the limit bits
at an off-boundary height; the walk terminates and never dereferences a
missing predecessor. -/
theorem C10_mindiff_walk (last : BIdx) (rest : List BIdx) (t : Int) (p : Params)
    (hb : (last.nHeight + 1).tmod (DifficultyAdjustmentInterval p) ≠ 0)
    (hmd : p.fPowAllowMinDifficultyBlocks = true)
    (ht : ¬ t > last.nTime + p.nPowTargetSpacing * 2)
    (hall : ∀ b ∈ last :: rest,
      b.nHeight.tmod (DifficultyAdjustmentInterval p) ≠ 0 ∧
        b.nBits = getCompact (if last.nHeight + 1 ≥ p.CuckooHardForkBlockHeight
          then p.cuckooPowLimit else p.powLimit)) :
    GetNextWorkRequired (last :: rest) t p =
      some (((last :: rest).getLast (List.cons_ne_nil _ _)).nBits) := by
  simp only [GetNextWorkRequired]
  rw [if_pos hb, if_pos hmd, if_neg ht,
    minDiffWalk_getLast p _ (last :: rest) (List.cons_ne_nil _ _) hall]

/-- Claim C10 witness: a concrete 3-entry testnet chain entirely at the
limit bits, walked down to genesis. -/
theorem C10_witness :
    GetNextWorkRequired cMinDiffChain 0 cTestParams =
      some ((cMinDiffChain.getLast (by decide)).nBits) :=
  C10_mindiff_walk ⟨3, 1200, 0x1d00ffff⟩
    [⟨2, 600, 0x1d00ffff⟩, ⟨1, 0, 0x1d00ffff⟩] 0 cTestParams
    (by decide) (by decide) (by decide) (by decide)

/-- Claim C1: for a cuckoo-flagged header whose nBits decode without
negative or overflow to a non-zero target within the cuckoo pow limit,
CheckProofOfWork accepts exactly when the cuckoo proof verifies OK and the
standard whole-header hash is at most the decoded target — the hash
compared is the whole-header hash field, not any hash of the 42 nonces. -/
theorem C1_whole_header_hash (h : HeaderPoW) (p : Params)
    (hc : h.isCuckooPow = true)
    (hneg : (setCompact h.nBits).neg = false)
    (hover : (setCompact h.nBits).over = false)
    (hzero : (setCompact h.nBits).val ≠ 0)
    (hle : (setCompact h.nBits).val ≤ p.cuckooPowLimit) :
    (CheckProofOfWork h p = true ↔
      (verify h.cuckooProof h.powKeyHash (p.cuckooGraphSize - 1) = some VCode.POW_OK ∧
        h.headerHash ≤ (setCompact h.nBits).val)) := by
  have hnl : ¬ (setCompact h.nBits).val > p.cuckooPowLimit := Nat.not_lt.mpr hle
  by_cases hok : verify h.cuckooProof h.powKeyHash (p.cuckooGraphSize - 1) = some VCode.POW_OK <;>
    by_cases hh : h.headerHash ≤ (setCompact h.nBits).val <;>
      simp [CheckProofOfWork, CheckCuckooProofOfWork, hc, hneg, hover, hzero, hnl,
        hok, hh, Nat.not_le, Nat.not_lt]

/-- Claim C1 witness: the equivalence instantiated on a concrete
cuckoo-flagged header at target 0x1d00ffff. -/
theorem C1_witness :
    CheckProofOfWork cHeader cHeaderParams = true ↔
      (verify cHeader.cuckooProof cHeader.powKeyHash (cHeaderParams.cuckooGraphSize - 1) =
          some VCode.POW_OK ∧
        cHeader.headerHash ≤ (setCompact cHeader.nBits).val) :=
  C1_whole_header_hash cHeader cHeaderParams (by decide) (by decide) (by decide)
    (by decide) (by decide)

/-- Helper: the range/order scan of verify stops at the first violating
index and reports TOO_BIG there when the nonce is out of range, otherwise
TOO_SMALL. -/
theorem rocGo_spec (nonces : Nat → Nat) (em n0 : Nat)
    (hviol : nonces n0 > em ∨ (n0 ≠ 0 ∧ nonces n0 ≤ nonces (n0 - 1)))
    (hmin : ∀ m, m < n0 → ¬(nonces m > em ∨ (m ≠ 0 ∧ nonces m ≤ nonces (m - 1)))) :
    ∀ (fuel s : Nat), s ≤ n0 → n0 < s + fuel →
      rocGo nonces em s fuel =
        some (if nonces n0 > em then VCode.POW_TOO_BIG else VCode.POW_TOO_SMALL)
  | 0, s, hs, hlt => by omega
  | fuel + 1, s, hs, hlt => by
    rcases eq_or_lt_of_le hs with heq | hlt2
    · subst heq
      rcases Nat.lt_or_ge em (nonces s) with hbig | hsmall
      · rw [rocGo, if_pos hbig, if_pos hbig]
      · have hnb : ¬ nonces s > em := Nat.not_lt.mpr hsmall
        rcases hviol with hb | ho
        · exact absurd hb hnb
        · rw [rocGo, if_neg hnb, if_pos ho, if_neg hnb]
    · have hnv := hmin s hlt2
      push_neg at hnv
      rw [rocGo, if_neg (Nat.not_lt.mpr hnv.1), if_neg (by
        intro hcon
        exact absurd hcon.2 (Nat.not_le.mpr (hnv.2 hcon.1)))]
      exact rocGo_spec nonces em n0 hviol hmin fuel (s + 1) hlt2 (by omega)

/-- Claim C7 (amended): scanning indices 0..41 in order, verify returns at
the first violating index n0, with TOO_BIG when that nonce exceeds edgemask
and TOO_SMALL when (only) the ascending order is broken there; no such
input reaches the xor or traversal stages. -/
theorem C7_first_violation (nonces : Nat → Nat) (buf : List Nat) (edgebits n0 : Nat)
    (hn : n0 < 42)
    (hviol : nonces n0 > 2 ^ edgebits - 1 ∨ (n0 ≠ 0 ∧ nonces n0 ≤ nonces (n0 - 1)))
    (hmin : ∀ m, m < n0 →
      ¬(nonces m > 2 ^ edgebits - 1 ∨ (m ≠ 0 ∧ nonces m ≤ nonces (m - 1)))) :
    verify nonces buf edgebits =
      some (if nonces n0 > 2 ^ edgebits - 1 then VCode.POW_TOO_BIG
        else VCode.POW_TOO_SMALL) := by
  have h := rocGo_spec nonces (2 ^ edgebits - 1) n0 hviol hmin 42 0 (Nat.zero_le _)
    (by omega)
  simp only [verify, rangeOrderCheck]
  rw [h]

/-- Claim C7 (counterexample): a proof whose first nonce is out of range
and whose second nonce breaks the ascending order is answered TOO_BIG, not
TOO_SMALL, so the TOO_SMALL clause of the claim fails as stated. -/
theorem C7_counterexample :
    cBothViol 1 ≤ cBothViol 0 ∧ verify cBothViol wZeroBuf 6 ≠ some VCode.POW_TOO_SMALL ∧
      verify cBothViol wZeroBuf 6 = some VCode.POW_TOO_BIG := by decide

/-- Claim C7 witness: the amended first-violation rule instantiated on the
concrete doubly-violating proof. -/
theorem C7_witness :
    verify cBothViol wZeroBuf 6 =
      some (if cBothViol 0 > 2 ^ 6 - 1 then VCode.POW_TOO_BIG else VCode.POW_TOO_SMALL) :=
  C7_first_violation cBothViol wZeroBuf 6 0 (by decide) (by decide)
    (fun m hm => absurd hm (Nat.not_lt_zero m))

/-- Claim C2 (counterexample): a non-null tip at height 1 off the interval
boundary satisfies the two stated preconditions, yet GetNextWorkRequired
fails an assertion (embedded none): the emergency path dereferences the
ancestor at height -5, which does not exist. -/
theorem C2_counterexample :
    cShortChain ≠ [] ∧
      ((1 : Int) + 1).tmod (DifficultyAdjustmentInterval cParams) ≠ 0 ∧
      GetNextWorkRequired cShortChain 0 cParams = none := by decide

/-- Claim C3 (counterexample): for a tip whose nBits decode to 2^255 (far
above the active limit), the ordinary retarget returns a target decoding to
0, vastly below decode(tip.nBits)/4 even granting the compact-encoding
rounding slack, so the claimed lower bound fails as stated. -/
theorem C3_counterexample :
    setCompactValue (CalculateNextWorkRequired cHugeTip 0 cParams) = 0 ∧
      ¬(setCompactValue cHugeTip.nBits / 4 ≤
        setCompactValue (CalculateNextWorkRequired cHugeTip 0 cParams) +
          setCompactValue (CalculateNextWorkRequired cHugeTip 0 cParams) / 2 ^ 15) := by
  decide

/-- Helper: the ancestor search never returns an empty chain. -/
theorem ancestorAt_ne_nil : ∀ (c : List BIdx) (h : Int) (l : List BIdx),
    ancestorAt c h = some l → l ≠ []
  | [], _, l, hl => by simp [ancestorAt] at hl
  | e :: rest, h, l, hl => by
    rw [ancestorAt] at hl
    split at hl
    · cases hl; simp
    · exact ancestorAt_ne_nil rest h l hl

/-- Helper: a successful GetAncestor yields a non-empty chain at a
non-negative height. -/
theorem GetAncestor_some (c : List BIdx) (h : Int) (l : List BIdx)
    (hl : GetAncestor c h = some l) : l ≠ [] ∧ 0 ≤ h := by
  cases c with
  | nil => simp [GetAncestor] at hl
  | cons e rest =>
    rw [GetAncestor] at hl
    split at hl
    · cases hl
    · rename_i hcond
      push_neg at hcond
      exact ⟨ancestorAt_ne_nil _ _ _ hl, by omega⟩

/-- Claim C2 (amended): GetNextWorkRequired fails no internal assertion
provided the tip is non-null, the interval-boundary case has its
first-of-window ancestor (or sits exactly on the fork height), and — in
addition to the two preconditions stated by the claim — on the
emergency-retarget path the ancestor at height tip.height - 6 exists and,
when the emergency condition fires, some ancestor below it has a decoded
target strictly greater than the tip target. -/
theorem C2_no_assert_failure (last : BIdx) (rest : List BIdx) (t : Int) (p : Params)
    (hboundary : (last.nHeight + 1).tmod (DifficultyAdjustmentInterval p) = 0 →
      (last.nHeight + 1 = p.CuckooHardForkBlockHeight ∨
        (GetAncestor (last :: rest)
          (last.nHeight - (DifficultyAdjustmentInterval p - 1))).isSome))
    (hemergency : ((last.nHeight + 1).tmod (DifficultyAdjustmentInterval p) ≠ 0 ∧
        p.fPowAllowMinDifficultyBlocks = false ∧
        last.nHeight + 1 > p.CuckooHardForkBlockHeight ∧
        last.nBits ≠ getCompact (if last.nHeight + 1 ≥ p.CuckooHardForkBlockHeight
          then p.cuckooPowLimit else p.powLimit)) →
      emergencyAssertOk last rest p = true) :
    (GetNextWorkRequired (last :: rest) t p).isSome := by
  simp only [GetNextWorkRequired]
  by_cases hb : (last.nHeight + 1).tmod (DifficultyAdjustmentInterval p) ≠ 0
  · rw [if_pos hb]
    by_cases hmd : p.fPowAllowMinDifficultyBlocks
    · rw [if_pos hmd]
      split <;> simp
    · rw [if_neg hmd]
      by_cases hck : last.nHeight + 1 > p.CuckooHardForkBlockHeight ∧
        last.nBits ≠ getCompact (if last.nHeight + 1 ≥ p.CuckooHardForkBlockHeight
          then p.cuckooPowLimit else p.powLimit)
      · rw [if_pos hck]
        have hok := hemergency ⟨hb, Bool.eq_false_iff.mpr hmd, hck.1, hck.2⟩
        rw [emergencyAssertOk] at hok
        cases hga : GetAncestor (last :: rest) (last.nHeight + 1 - 1 - 6) with
        | none => rw [hga] at hok; cases hok
        | some ancChain =>
          rw [hga] at hok
          cases ancChain with
          | nil => cases hok
          | cons anc tl =>
            replace hok : (if last.nBits = anc.nBits ∧
                medianTimePast (last :: rest) - medianTimePast (anc :: tl) >
                  p.nPowTargetSpacing * 6 * 6 then
                (easierWalk (setCompactValue last.nBits) (anc :: tl)).isSome
              else true) = true := hok
            simp only [emergencyRetarget]
            split
            · rename_i hcond
              rw [if_pos hcond] at hok
              obtain ⟨pb, hpb⟩ := Option.isSome_iff_exists.mp hok
              rw [hpb]
              simp
            · simp
      · rw [if_neg hck]
        simp
  · rw [if_neg hb]
    push_neg at hb
    by_cases hf : last.nHeight + 1 = p.CuckooHardForkBlockHeight
    · rw [if_pos hf]
      simp
    · rw [if_neg hf]
      rcases hboundary hb with hf2 | hanc
      · exact absurd hf2 hf
      · obtain ⟨l, hl⟩ := Option.isSome_iff_exists.mp hanc
        have hprop := GetAncestor_some _ _ _ hl
        rw [if_neg (by omega), hl]
        cases l with
        | nil => exact absurd rfl hprop.1
        | cons f tl => simp

/-- Claim C2 witness: the amended safety statement on a concrete 8-block
post-fork chain where the emergency retarget fires and finds its easier
ancestor. -/
theorem C2_witness : (GetNextWorkRequired cEmChain 0 cParams).isSome :=
  C2_no_assert_failure ⟨7, 70000, 0x1c00ffff⟩
    [⟨6, 60000, 0x1c00ffff⟩, ⟨5, 50000, 0x1c00ffff⟩, ⟨4, 40000, 0x1c00ffff⟩,
     ⟨3, 30000, 0x1c00ffff⟩, ⟨2, 20000, 0x1c00ffff⟩, ⟨1, 10000, 0x1c00ffff⟩,
     ⟨0, 0, 0x1d00ffff⟩] 0 cParams (by decide) (by decide)

/-- Helper: the emergency backward walk returns the nBits of the first
(nearest) entry whose decoded target strictly exceeds `cur`. -/
theorem easierWalk_nearest (cur : Nat) :
    ∀ (l : List BIdx) (k : Nat) (hk : k < l.length),
      setCompactValue (l.get ⟨k, hk⟩).nBits > cur →
      (∀ m (hm : m < k), setCompactValue (l.get ⟨m, Nat.lt_trans hm hk⟩).nBits ≤ cur) →
      easierWalk cur l = some (l.get ⟨k, hk⟩).nBits
  | [], k, hk, _, _ => absurd hk (Nat.not_lt_zero k)
  | e :: rest, 0, hk, hgt, _ => by
    have hgt2 : setCompactValue e.nBits > cur := hgt
    show easierWalk cur (e :: rest) = some e.nBits
    rw [easierWalk, if_neg (Nat.not_le.mpr hgt2)]
  | e :: rest, k + 1, hk, hgt, hmin => by
    have h0 : setCompactValue e.nBits ≤ cur := hmin 0 (Nat.succ_pos k)
    have hk2 : k < rest.length := Nat.lt_of_succ_lt_succ (by simpa using hk)
    have hgt2 : setCompactValue (rest.get ⟨k, hk2⟩).nBits > cur := hgt
    show easierWalk cur (e :: rest) = some (rest.get ⟨k, hk2⟩).nBits
    rw [easierWalk, if_pos h0]
    exact easierWalk_nearest cur rest k hk2 hgt2
      (fun m hm => hmin (m + 1) (Nat.succ_lt_succ hm))

/-- Helper: GetNextWorkRequired reduces to the emergency-retarget block in
the post-fork, off-boundary, off-limit case. -/
theorem GetNextWorkRequired_emergency (last : BIdx) (rest : List BIdx) (t : Int)
    (p : Params) (ac : List BIdx)
    (hb : (last.nHeight + 1).tmod (DifficultyAdjustmentInterval p) ≠ 0)
    (hmd : p.fPowAllowMinDifficultyBlocks = false)
    (hfork : last.nHeight + 1 > p.CuckooHardForkBlockHeight)
    (hbits : last.nBits ≠ getCompact (if last.nHeight + 1 ≥ p.CuckooHardForkBlockHeight
      then p.cuckooPowLimit else p.powLimit))
    (hga : GetAncestor (last :: rest) (last.nHeight + 1 - 1 - 6) = some ac) :
    GetNextWorkRequired (last :: rest) t p =
      emergencyRetarget (last :: rest) ac last.nBits p := by
  simp only [GetNextWorkRequired]
  rw [if_pos hb, if_neg (by simp [hmd]), if_pos ⟨hfork, hbits⟩, hga]

/-- Claim C4: in the post-fork, off-boundary, off-limit, no-testnet case
with the ancestor at height tip.height - 6 present: when that ancestor
shares the tip nBits and the median-time-past span exceeds 36 spacings,
GetNextWorkRequired returns the compact midpoint of the tip target and the
target of the nearest ancestor whose decoded target strictly exceeds the
tip target (in 256-bit arithmetic); otherwise it returns the tip nBits
unchanged. -/
theorem C4_emergency_retarget (last : BIdx) (rest : List BIdx) (t : Int) (p : Params)
    (anc : BIdx) (atl : List BIdx)
    (hb : (last.nHeight + 1).tmod (DifficultyAdjustmentInterval p) ≠ 0)
    (hmd : p.fPowAllowMinDifficultyBlocks = false)
    (hfork : last.nHeight + 1 > p.CuckooHardForkBlockHeight)
    (hbits : last.nBits ≠ getCompact (if last.nHeight + 1 ≥ p.CuckooHardForkBlockHeight
      then p.cuckooPowLimit else p.powLimit))
    (hga : GetAncestor (last :: rest) (last.nHeight + 1 - 1 - 6) = some (anc :: atl)) :
    ((anc.nBits = last.nBits ∧
        medianTimePast (last :: rest) - medianTimePast (anc :: atl) >
          36 * p.nPowTargetSpacing) →
      ∀ (k : Nat) (hk : k < (anc :: atl).length),
        setCompactValue ((anc :: atl).get ⟨k, hk⟩).nBits > setCompactValue last.nBits →
        (∀ m (hm : m < k),
          setCompactValue ((anc :: atl).get ⟨m, Nat.lt_trans hm hk⟩).nBits ≤
            setCompactValue last.nBits) →
        GetNextWorkRequired (last :: rest) t p =
          some (getCompact ((setCompactValue last.nBits +
            setCompactValue ((anc :: atl).get ⟨k, hk⟩).nBits) % 2 ^ 256 / 2))) ∧
    (¬(anc.nBits = last.nBits ∧
        medianTimePast (last :: rest) - medianTimePast (anc :: atl) >
          36 * p.nPowTargetSpacing) →
      GetNextWorkRequired (last :: rest) t p = some last.nBits) := by
  rw [GetNextWorkRequired_emergency last rest t p (anc :: atl) hb hmd hfork hbits hga]
  have hspacing : p.nPowTargetSpacing * 6 * 6 = 36 * p.nPowTargetSpacing := by ring
  constructor
  · intro hcond k hk hgt hmin
    simp only [emergencyRetarget]
    rw [if_pos ⟨hcond.1.symm, by rw [hspacing]; exact hcond.2⟩,
      easierWalk_nearest (setCompactValue last.nBits) (anc :: atl) k hk hgt hmin]
  · intro hcond
    simp only [emergencyRetarget]
    rw [if_neg (by
      intro hcon
      exact hcond ⟨hcon.1.symm, by rw [← hspacing]; exact hcon.2⟩)]

/-- Claim C4 witness: the emergency retarget on the concrete 8-block chain
returns the compact midpoint of targets 0x1c00ffff and 0x1d00ffff. -/
theorem C4_witness :
    GetNextWorkRequired cEmChain 0 cParams =
      some (getCompact ((setCompactValue 0x1c00ffff + setCompactValue 0x1d00ffff) %
        2 ^ 256 / 2)) :=
  (C4_emergency_retarget ⟨7, 70000, 0x1c00ffff⟩
    [⟨6, 60000, 0x1c00ffff⟩, ⟨5, 50000, 0x1c00ffff⟩, ⟨4, 40000, 0x1c00ffff⟩,
     ⟨3, 30000, 0x1c00ffff⟩, ⟨2, 20000, 0x1c00ffff⟩, ⟨1, 10000, 0x1c00ffff⟩,
     ⟨0, 0, 0x1d00ffff⟩] 0 cParams ⟨1, 10000, 0x1c00ffff⟩ [⟨0, 0, 0x1d00ffff⟩]
    (by decide) rfl (by decide) (by decide) (by decide)).1
    (by decide) 1 (by decide) (by decide)
    (fun m hm => by
      have hm0 : m = 0 := by omega
      subst hm0
      show setCompactValue (⟨1, 10000, 0x1c00ffff⟩ : BIdx).nBits ≤
        setCompactValue (⟨7, 70000, 0x1c00ffff⟩ : BIdx).nBits
      decide)

/-- Helper: the byte-length scan maps zero to zero for any fuel. -/
theorem byteLenAux_zero (fuel : Nat) : byteLenAux fuel 0 = 0 := by
  cases fuel <;> simp [byteLenAux]

/-- Helper: the byte-length scan brackets its input between consecutive
powers of 256 when given enough fuel. -/
theorem byteLenAux_spec : ∀ (fuel x : Nat), x < 256 ^ fuel →
    x < 256 ^ byteLenAux fuel x ∧ (x ≠ 0 → 256 ^ (byteLenAux fuel x - 1) ≤ x)
  | 0, x, hx => by
    have hx0 : x = 0 := by simpa using hx
    subst hx0
    simp [byteLenAux_zero]
  | fuel + 1, x, hx => by
    by_cases h0 : x = 0
    · subst h0
      simp [byteLenAux_zero]
    · rw [byteLenAux, if_neg h0]
      have hdiv : x / 256 < 256 ^ fuel := by
        rw [Nat.div_lt_iff_lt_mul (by norm_num)]
        calc x < 256 ^ (fuel + 1) := hx
        _ = 256 ^ fuel * 256 := by ring
      obtain ⟨ih1, ih2⟩ := byteLenAux_spec fuel (x / 256) hdiv
      constructor
      · have hps : (256 : Nat) ^ (byteLenAux fuel (x / 256) + 1) =
            256 ^ byteLenAux fuel (x / 256) * 256 := by ring
        omega
      · intro _
        by_cases hq : x / 256 = 0
        · rw [hq, byteLenAux_zero]
          simpa using Nat.one_le_iff_ne_zero.mpr h0
        · have h2 := ih2 hq
          have hbpos : 1 ≤ byteLenAux fuel (x / 256) := by
            by_contra hc
            have hb0 : byteLenAux fuel (x / 256) = 0 := by omega
            rw [hb0] at ih1
            omega
          have hsub : (256 : Nat) ^ (byteLenAux fuel (x / 256) - 1) * 256 =
              256 ^ byteLenAux fuel (x / 256) := by
            rw [← pow_succ]
            congr 1
            omega
          rw [Nat.add_sub_cancel]
          omega

/-- Helper: any value is below the next multiple of a positive modulus. -/
theorem lt_div_succ_mul (x P : Nat) (hP : 0 < P) : x < (x / P + 1) * P := by
  calc x = P * (x / P) + x % P := (Nat.div_add_mod x P).symm
  _ < P * (x / P) + P := Nat.add_lt_add_left (Nat.mod_lt x hP) _
  _ = (x / P + 1) * P := by ring

/-- Helper: packing without the sign-bit adjustment. -/
theorem getCompactCore_nosign (sz c : Nat) (hc : ¬ c / 2 ^ 23 % 2 = 1) :
    getCompactCore sz c = c + sz * 2 ^ 24 := by
  simp only [getCompactCore]
  rw [if_neg hc, if_neg hc]

/-- Helper: packing with the sign-bit adjustment. -/
theorem getCompactCore_sign (sz c : Nat) (hc : c / 2 ^ 23 % 2 = 1) :
    getCompactCore sz c = c / 256 + (sz + 1) * 2 ^ 24 := by
  simp only [getCompactCore]
  rw [if_pos hc, if_pos hc]

/-- Helper: decoding a compact word assembled from a sub-sign mantissa and
an exponent byte. -/
theorem setCompactValue_pack (c sz : Nat) (hc : c < 2 ^ 23) :
    setCompactValue (c + sz * 2 ^ 24) =
      if sz ≤ 3 then c / 256 ^ (3 - sz) else c * 256 ^ (sz - 3) % 2 ^ 256 := by
  have h1 : (c + sz * 2 ^ 24) / 2 ^ 24 = sz := by omega
  have h2 : (c + sz * 2 ^ 24) % 2 ^ 23 = c := by omega
  simp only [setCompactValue, setCompact]
  rw [h1, h2]

/-- Helper: GetCompact on a value of at most three bytes. -/
theorem getCompact_small (x : Nat) (hs : byteLen x ≤ 3) :
    getCompact x = getCompactCore (byteLen x) ((x % 2 ^ 64) * 256 ^ (3 - byteLen x)) := by
  simp only [getCompact]
  rw [if_pos hs]

/-- Helper: GetCompact on a value of more than three bytes. -/
theorem getCompact_large (x : Nat) (hs : ¬ byteLen x ≤ 3) :
    getCompact x = getCompactCore (byteLen x) ((x / 256 ^ (byteLen x - 3)) % 2 ^ 64) := by
  simp only [getCompact]
  rw [if_neg hs]

/-- Helper: to_compact followed by decode never rounds up, and rounds down
by at most a 2^-15 relative error. -/
theorem getCompact_approx (x : Nat) (hx : x < 2 ^ 256) :
    setCompactValue (getCompact x) ≤ x ∧
      x ≤ setCompactValue (getCompact x) + setCompactValue (getCompact x) / 2 ^ 15 := by
  rcases eq_or_ne x 0 with rfl | hx0
  · exact ⟨by decide, by decide⟩
  have hbig : x < 256 ^ 40 := lt_of_lt_of_le hx (by norm_num)
  obtain ⟨hxs, hlow0⟩ := byteLenAux_spec 40 x hbig
  have hlow := hlow0 hx0
  have hbl : byteLenAux 40 x = byteLen x := rfl
  rw [hbl] at hxs hlow
  have hs1 : 1 ≤ byteLen x := by
    rcases Nat.eq_zero_or_pos (byteLen x) with h0 | h
    · rw [h0] at hxs
      simp at hxs
      omega
    · exact h
  rcases le_or_lt (byteLen x) 3 with hsm | hbg
  · -- at most three bytes: the mantissa carries the whole value
    have hpow3 : (256 : Nat) ^ byteLen x * 256 ^ (3 - byteLen x) = 2 ^ 24 := by
      rw [← pow_add]
      have h3 : byteLen x + (3 - byteLen x) = 3 := by omega
      rw [h3]
      norm_num
    have hK : (0 : Nat) < 256 ^ (3 - byteLen x) := Nat.pos_pow_of_pos _ (by norm_num)
    have hx24 : x < 2 ^ 24 := by
      have h3 : (256 : Nat) ^ byteLen x ≤ 2 ^ 24 := by
        calc (256 : Nat) ^ byteLen x ≤ 256 ^ 3 := Nat.pow_le_pow_right (by norm_num) hsm
        _ = 2 ^ 24 := by norm_num
      omega
    have hmod : x % 2 ^ 64 = x := Nat.mod_eq_of_lt (by omega)
    rw [getCompact_small x hsm, hmod]
    have hc24 : x * 256 ^ (3 - byteLen x) < 2 ^ 24 := by
      calc x * 256 ^ (3 - byteLen x) < 256 ^ byteLen x * 256 ^ (3 - byteLen x) :=
        (Nat.mul_lt_mul_right hK).mpr hxs
      _ = 2 ^ 24 := hpow3
    by_cases hsign : x * 256 ^ (3 - byteLen x) / 2 ^ 23 % 2 = 1
    · rw [getCompactCore_sign _ _ hsign]
      have hd23 : x * 256 ^ (3 - byteLen x) / 256 < 2 ^ 23 := by omega
      rw [setCompactValue_pack _ _ hd23]
      rcases Nat.lt_or_ge (byteLen x) 3 with hs2 | hs3
      · -- two bytes or less: still an exact roundtrip
        rw [if_pos (by omega)]
        have hdd : x * 256 ^ (3 - byteLen x) / 256 / 256 ^ (3 - (byteLen x + 1)) = x := by
          rw [Nat.div_div_eq_div_mul]
          have h1 : 256 * 256 ^ (3 - (byteLen x + 1)) = 256 ^ (3 - byteLen x) := by
            rw [← pow_succ']
            congr 1
            omega
          rw [h1]
          exact Nat.mul_div_cancel x hK
        rw [hdd]
        exact ⟨le_refl x, Nat.le_add_right x _⟩
      · -- exactly three bytes with the sign bit set: one byte truncated
        have hs3e : byteLen x = 3 := by omega
        rw [hs3e] at hsign ⊢
        have hone : x * 256 ^ (3 - 3) = x := by norm_num
        rw [hone] at hsign ⊢
        rw [if_neg (by omega)]
        have hp1 : (256 : Nat) ^ (3 + 1 - 3) = 256 := by norm_num
        rw [hp1]
        have hmod2 : x / 256 * 256 % 2 ^ 256 = x / 256 * 256 :=
          Nat.mod_eq_of_lt (by omega)
        rw [hmod2]
        omega
    · rw [getCompactCore_nosign _ _ hsign]
      have hc23 : x * 256 ^ (3 - byteLen x) < 2 ^ 23 := by omega
      rw [setCompactValue_pack _ _ hc23, if_pos hsm]
      rw [Nat.mul_div_cancel x hK]
      exact ⟨le_refl x, Nat.le_add_right x _⟩
  · -- more than three bytes: mantissa is the top three bytes
    have hsgt : ¬ byteLen x ≤ 3 := by omega
    rw [getCompact_large x hsgt]
    have hP : (0 : Nat) < 256 ^ (byteLen x - 3) := Nat.pos_pow_of_pos _ (by norm_num)
    have hsplit : (256 : Nat) ^ byteLen x = 2 ^ 24 * 256 ^ (byteLen x - 3) := by
      have h1 : (256 : Nat) ^ byteLen x = 256 ^ 3 * 256 ^ (byteLen x - 3) := by
        rw [← pow_add]
        congr 1
        omega
      rw [h1]
      norm_num
    have hc24 : x / 256 ^ (byteLen x - 3) < 2 ^ 24 := by
      rw [Nat.div_lt_iff_lt_mul hP]
      omega
    have hmod : (x / 256 ^ (byteLen x - 3)) % 2 ^ 64 = x / 256 ^ (byteLen x - 3) :=
      Nat.mod_eq_of_lt (by omega)
    rw [hmod]
    have hc16 : 2 ^ 16 ≤ x / 256 ^ (byteLen x - 3) := by
      have h1 : (256 : Nat) ^ (byteLen x - 1) / 256 ^ (byteLen x - 3) ≤
          x / 256 ^ (byteLen x - 3) := Nat.div_le_div_right hlow
      have h2 : (256 : Nat) ^ (byteLen x - 1) / 256 ^ (byteLen x - 3) = 256 ^ 2 := by
        rw [Nat.pow_div (by omega) (by norm_num)]
        congr 1
        omega
      omega
    have hcPle : x / 256 ^ (byteLen x - 3) * 256 ^ (byteLen x - 3) ≤ x :=
      Nat.div_mul_le_self x _
    have hxlt : x < (x / 256 ^ (byteLen x - 3) + 1) * 256 ^ (byteLen x - 3) :=
      lt_div_succ_mul x _ hP
    by_cases hsign : x / 256 ^ (byteLen x - 3) / 2 ^ 23 % 2 = 1
    · rw [getCompactCore_sign _ _ hsign]
      have hd23 : x / 256 ^ (byteLen x - 3) / 256 < 2 ^ 23 := by omega
      rw [setCompactValue_pack _ _ hd23, if_neg (by omega)]
      have hpows : (256 : Nat) ^ (byteLen x + 1 - 3) = 256 * 256 ^ (byteLen x - 3) := by
        rw [← pow_succ']
        congr 1
        omega
      rw [hpows]
      have hRle : x / 256 ^ (byteLen x - 3) / 256 * (256 * 256 ^ (byteLen x - 3)) ≤ x := by
        calc x / 256 ^ (byteLen x - 3) / 256 * (256 * 256 ^ (byteLen x - 3)) =
            x / 256 ^ (byteLen x - 3) / 256 * 256 * 256 ^ (byteLen x - 3) := by ring
        _ ≤ x / 256 ^ (byteLen x - 3) * 256 ^ (byteLen x - 3) :=
            Nat.mul_le_mul_right _ (Nat.div_mul_le_self _ 256)
        _ ≤ x := hcPle
      have hmod2 : x / 256 ^ (byteLen x - 3) / 256 * (256 * 256 ^ (byteLen x - 3)) %
          2 ^ 256 = x / 256 ^ (byteLen x - 3) / 256 * (256 * 256 ^ (byteLen x - 3)) :=
        Nat.mod_eq_of_lt (by omega)
      rw [hmod2]
      refine ⟨hRle, ?_⟩
      have h1 : x < (x / 256 ^ (byteLen x - 3) / 256 + 1) * (256 * 256 ^ (byteLen x - 3)) := by
        calc x < (x / 256 ^ (byteLen x - 3) + 1) * 256 ^ (byteLen x - 3) := hxlt
        _ ≤ ((x / 256 ^ (byteLen x - 3) / 256 + 1) * 256) * 256 ^ (byteLen x - 3) :=
          Nat.mul_le_mul_right _ (by omega)
        _ = (x / 256 ^ (byteLen x - 3) / 256 + 1) * (256 * 256 ^ (byteLen x - 3)) := by ring
      have h2 : 256 * 256 ^ (byteLen x - 3) ≤
          x / 256 ^ (byteLen x - 3) / 256 * (256 * 256 ^ (byteLen x - 3)) / 2 ^ 15 := by
        rw [Nat.le_div_iff_mul_le (by norm_num)]
        calc 256 * 256 ^ (byteLen x - 3) * 2 ^ 15 =
            2 ^ 15 * (256 * 256 ^ (byteLen x - 3)) := by ring
        _ ≤ x / 256 ^ (byteLen x - 3) / 256 * (256 * 256 ^ (byteLen x - 3)) :=
          Nat.mul_le_mul_right _ (by omega)
      have h3 : (x / 256 ^ (byteLen x - 3) / 256 + 1) * (256 * 256 ^ (byteLen x - 3)) =
          x / 256 ^ (byteLen x - 3) / 256 * (256 * 256 ^ (byteLen x - 3)) +
            256 * 256 ^ (byteLen x - 3) := by ring
      omega
    · rw [getCompactCore_nosign _ _ hsign]
      have hc23 : x / 256 ^ (byteLen x - 3) < 2 ^ 23 := by omega
      rw [setCompactValue_pack _ _ hc23, if_neg (by omega)]
      have hmod2 : x / 256 ^ (byteLen x - 3) * 256 ^ (byteLen x - 3) % 2 ^ 256 =
          x / 256 ^ (byteLen x - 3) * 256 ^ (byteLen x - 3) :=
        Nat.mod_eq_of_lt (by omega)
      rw [hmod2]
      refine ⟨hcPle, ?_⟩
      have h2 : 256 ^ (byteLen x - 3) ≤
          x / 256 ^ (byteLen x - 3) * 256 ^ (byteLen x - 3) / 2 ^ 15 := by
        rw [Nat.le_div_iff_mul_le (by norm_num)]
        calc 256 ^ (byteLen x - 3) * 2 ^ 15 = 2 ^ 15 * 256 ^ (byteLen x - 3) := by ring
        _ ≤ x / 256 ^ (byteLen x - 3) * 256 ^ (byteLen x - 3) :=
          Nat.mul_le_mul_right _ (by omega)
      have h3 : (x / 256 ^ (byteLen x - 3) + 1) * 256 ^ (byteLen x - 3) =
          x / 256 ^ (byteLen x - 3) * 256 ^ (byteLen x - 3) + 256 ^ (byteLen x - 3) := by
        ring
      omega

/-- Helper: bounds of the retarget computation on the Nat side, with the
timespan a positive multiple of 4 and the clamped actual timespan between
a quarter and four times the timespan. -/
theorem retarget_core_bounds (D L aN TN qN : Nat)
    (hTq : TN = 4 * qN) (hq : 0 < qN)
    (ha1 : qN ≤ aN) (ha2 : aN ≤ 4 * TN)
    (hDL : D ≤ L) (hnoov : L * (4 * TN) < 2 ^ 256) :
    setCompactValue (getCompact
        (if D * aN % 2 ^ 256 / TN > L then L else D * aN % 2 ^ 256 / TN)) ≤ 4 * D ∧
      setCompactValue (getCompact
        (if D * aN % 2 ^ 256 / TN > L then L else D * aN % 2 ^ 256 / TN)) ≤ L ∧
      D / 4 ≤ setCompactValue (getCompact
          (if D * aN % 2 ^ 256 / TN > L then L else D * aN % 2 ^ 256 / TN)) +
        setCompactValue (getCompact
          (if D * aN % 2 ^ 256 / TN > L then L else D * aN % 2 ^ 256 / TN)) / 2 ^ 15 := by
  have hDa : D * aN ≤ L * (4 * TN) := Nat.mul_le_mul hDL ha2
  have hm : D * aN % 2 ^ 256 = D * aN := Nat.mod_eq_of_lt (by omega)
  rw [hm]
  have hpre0le : D * aN / TN ≤ 4 * D := by
    have h1 : D * aN ≤ 4 * D * TN := by
      calc D * aN ≤ D * (4 * TN) := Nat.mul_le_mul_left D ha2
      _ = 4 * D * TN := by ring
    calc D * aN / TN ≤ 4 * D * TN / TN := Nat.div_le_div_right h1
    _ = 4 * D := Nat.mul_div_cancel _ (by omega)
  have hpre0ge : D / 4 ≤ D * aN / TN := by
    calc D / 4 = D * qN / (4 * qN) := (Nat.mul_div_mul_right D 4 hq).symm
    _ ≤ D * aN / (4 * qN) := Nat.div_le_div_right (Nat.mul_le_mul_left D ha1)
    _ = D * aN / TN := by rw [hTq]
  have hpre0lt : D * aN / TN < 2 ^ 256 :=
    lt_of_le_of_lt (Nat.div_le_self _ _) (lt_of_le_of_lt hDa hnoov)
  have hLlt : L < 2 ^ 256 :=
    lt_of_le_of_lt (Nat.le_mul_of_pos_right L (by omega)) hnoov
  have hprelt : (if D * aN / TN > L then L else D * aN / TN) < 2 ^ 256 := by
    split <;> omega
  obtain ⟨hle, happrox⟩ :=
    getCompact_approx (if D * aN / TN > L then L else D * aN / TN) hprelt
  have hcap1 : (if D * aN / TN > L then L else D * aN / TN) ≤ 4 * D := by
    split <;> omega
  have hcap2 : (if D * aN / TN > L then L else D * aN / TN) ≤ L := by
    split <;> omega
  have hcap3 : D / 4 ≤ (if D * aN / TN > L then L else D * aN / TN) := by
    split <;> omega
  exact ⟨le_trans hle hcap1, le_trans hle hcap2, le_trans hcap3 happrox⟩

/-- Claim C3 (amended): for a tip whose decoded target does not exceed the
active limit, and well-formed params (positive timespan divisible by 4,
4*timespan below 2^64, limit times 4*timespan below 2^256), the ordinary
retarget output decodes into [decode(tip.nBits)/4 - rounding,
4*decode(tip.nBits)] and never exceeds the active limit, the rounding slack
being at most output/2^15. -/
theorem C3_retarget_bounds (tip : BIdx) (ft : Int) (p : Params)
    (hnr : p.fPowNoRetargeting = false)
    (hT : 0 < p.nPowTargetTimespan)
    (hT4 : (4 : Int) ∣ p.nPowTargetTimespan)
    (hT64 : p.nPowTargetTimespan * 4 < 2 ^ 64)
    (hDL : setCompactValue tip.nBits ≤
      (if tip.nHeight + 1 ≥ p.CuckooHardForkBlockHeight then p.cuckooPowLimit
        else p.powLimit))
    (hnoov : (if tip.nHeight + 1 ≥ p.CuckooHardForkBlockHeight then p.cuckooPowLimit
        else p.powLimit) * (4 * p.nPowTargetTimespan.toNat) < 2 ^ 256) :
    setCompactValue (CalculateNextWorkRequired tip ft p) ≤
        4 * setCompactValue tip.nBits ∧
      setCompactValue (CalculateNextWorkRequired tip ft p) ≤
        (if tip.nHeight + 1 ≥ p.CuckooHardForkBlockHeight then p.cuckooPowLimit
          else p.powLimit) ∧
      setCompactValue tip.nBits / 4 ≤
        setCompactValue (CalculateNextWorkRequired tip ft p) +
          setCompactValue (CalculateNextWorkRequired tip ft p) / 2 ^ 15 := by
  obtain ⟨q, hq⟩ := hT4
  have hq0 : 0 < q := by omega
  have hlo : p.nPowTargetTimespan.tdiv 4 = q := by
    rw [hq]
    exact Int.mul_tdiv_cancel_left q (by norm_num)
  simp only [CalculateNextWorkRequired]
  rw [if_neg (by simp [hnr]), hlo]
  set A := if tip.nTime - ft < q then q
    else if tip.nTime - ft > p.nPowTargetTimespan * 4 then p.nPowTargetTimespan * 4
    else tip.nTime - ft with hA
  have hA1 : q ≤ A ∧ A ≤ p.nPowTargetTimespan * 4 := by
    rw [hA]
    split_ifs <;> omega
  have hA0 : 0 ≤ A := by omega
  have hu64A : u64ofInt A = A.toNat := by
    rw [u64ofInt, Int.emod_eq_of_lt hA0 (by omega)]
  have hu64T : u64ofInt p.nPowTargetTimespan = p.nPowTargetTimespan.toNat := by
    rw [u64ofInt, Int.emod_eq_of_lt (by omega) (by omega)]
  rw [hu64A, hu64T]
  exact retarget_core_bounds (setCompactValue tip.nBits) _ A.toNat
    p.nPowTargetTimespan.toNat q.toNat (by omega) (by omega) (by omega) (by omega)
    hDL hnoov

/-- Claim C3 witness: the amended bounds instantiated on a concrete tip at
0x1c00ffff under mainnet-like parameters. -/
theorem C3_witness :
    setCompactValue (CalculateNextWorkRequired cSaneTip 0 cParams) ≤
        4 * setCompactValue cSaneTip.nBits ∧
      setCompactValue (CalculateNextWorkRequired cSaneTip 0 cParams) ≤
        (if cSaneTip.nHeight + 1 ≥ cParams.CuckooHardForkBlockHeight
          then cParams.cuckooPowLimit else cParams.powLimit) ∧
      setCompactValue cSaneTip.nBits / 4 ≤
        setCompactValue (CalculateNextWorkRequired cSaneTip 0 cParams) +
          setCompactValue (CalculateNextWorkRequired cSaneTip 0 cParams) / 2 ^ 15 :=
  C3_retarget_bounds cSaneTip 0 cParams (by decide) (by decide)
    ⟨302400, by decide⟩ (by decide) (by decide) (by decide)

/-- Helper: every scanned index is below 84. -/
theorem ringKs_mem_lt (i k : Nat) (h : k ∈ ringKs i) : k < 84 := by
  simp only [ringKs, List.mem_map, List.mem_range] at h
  obtain ⟨t, -, rfl⟩ := h
  omega

/-- Helper: for positions below 84, the scan ring of `i` holds exactly the
positions distinct from `i` with the offset parity of `i`. -/
theorem ringKs_mem_iff (i k : Nat) (hi : i < 84) (hk : k < 84) :
    k ∈ ringKs i ↔ (k ≠ i ∧ k % 2 = i % 2) := by
  simp only [ringKs, List.mem_map, List.mem_range]
  constructor
  · rintro ⟨t, ht, rfl⟩
    constructor
    · intro heq
      omega
    · omega
  · rintro ⟨hne, hpar⟩
    refine ⟨(k + 84 - i) % 84 / 2 - 1, by omega, by omega⟩

/-- Helper: the scan ring never repeats a position. -/
theorem ringKs_nodup (i : Nat) : (ringKs i).Nodup := by
  refine List.Nodup.map_on ?_ (List.nodup_range 41)
  intro s hs t ht heq
  simp only [List.mem_range] at hs ht
  omega

/-- Helper: xor with 1 keeps positions below 84. -/
theorem xor1_lt : ∀ j, j < 84 → j ^^^ 1 < 84 := by decide

/-- Helper: xor with 1 is an involution. -/
theorem xor_xor_one (j : Nat) : j ^^^ 1 ^^^ 1 = j := by
  rw [Nat.xor_assoc, Nat.xor_self, Nat.xor_zero]

/-- Helper: or-ing the partition bit into a doubled value just adds it. -/
theorem two_mul_lor_one (a : Nat) : (a * 2) ||| 1 = a * 2 + 1 := by
  apply Nat.eq_of_testBit_eq
  intro i
  cases i with
  | zero =>
    rw [Nat.testBit_lor, Nat.testBit_zero, Nat.testBit_zero, Nat.testBit_zero]
    have h1 : a * 2 % 2 = 0 := by omega
    have h2 : (a * 2 + 1) % 2 = 1 := by omega
    rw [h1, h2]
    simp
  | succ j =>
    rw [Nat.testBit_lor, Nat.testBit_succ, Nat.testBit_succ, Nat.testBit_succ]
    have e1 : a * 2 / 2 = a := by omega
    have e2 : (a * 2 + 1) / 2 = a := by omega
    have e3 : (1 : Nat) / 2 = 0 := by norm_num
    rw [e1, e2, e3, Nat.zero_testBit, Bool.or_false]

/-- Helper: the low bit of every uvs entry is its index parity (partition
bit), so entries at odd offsets never compare equal. -/
theorem mkUvs_parity (keys : SipKeys) (nonces : Nat → Nat) (em m : Nat) :
    mkUvs keys nonces em m % 2 = m % 2 := by
  show sipnode keys (nonces (m / 2)) (m % 2) em % 2 = m % 2
  rw [sipnode, Nat.shiftLeft_eq, pow_one]
  rcases Nat.mod_two_eq_zero_or_one m with hm | hm <;> rw [hm]
  · rw [Nat.or_zero]
    omega
  · rw [two_mul_lor_one]
    omega

/-- Helper: the inner scan with the match index already set: any further
match is a BRANCH, none leaves the recorded move. -/
theorem scanGo_armed (uvs : Nat → Nat) (i j : Nat) (hj : j ≠ i) :
    ∀ L : List Nat, scanGo uvs i j L =
      (match L.filter (fun k => decide (uvs k = uvs i)) with
        | [] => StepRes.next (j ^^^ 1)
        | _ :: _ => StepRes.branch)
  | [] => by simp [scanGo, hj]
  | k :: ks => by
    rw [scanGo]
    by_cases hm : uvs k = uvs i
    · rw [if_pos hm, if_pos hj, List.filter_cons_of_pos (by simp [hm])]
    · rw [if_neg hm, List.filter_cons_of_neg (by simp [hm])]
      exact scanGo_armed uvs i j hj ks

/-- Helper: the inner scan characterized by its match set: no match is a
DEAD_END, a unique match `j` moves to `j XOR 1`, two or more matches are a
BRANCH. -/
theorem scanGo_base (uvs : Nat → Nat) (i : Nat) :
    ∀ L : List Nat, i ∉ L → scanGo uvs i i L =
      (match L.filter (fun k => decide (uvs k = uvs i)) with
        | [] => StepRes.deadEnd
        | [j] => StepRes.next (j ^^^ 1)
        | _ :: _ :: _ => StepRes.branch)
  | [], _ => by simp [scanGo]
  | k :: ks, hnm => by
    have hki : k ≠ i := fun h => hnm (h ▸ List.mem_cons_self k ks)
    rw [scanGo]
    by_cases hm : uvs k = uvs i
    · rw [if_pos hm, if_neg (by simp), List.filter_cons_of_pos (by simp [hm]),
        scanGo_armed uvs i k hki ks]
      cases ks.filter (fun k2 => decide (uvs k2 = uvs i)) <;> rfl
    · rw [if_neg hm, List.filter_cons_of_neg (by simp [hm])]
      exact scanGo_base uvs i ks (fun h => hnm (List.mem_cons_of_mem k h))

/-- Helper: one traversal step characterized by the matches inside the scan
ring. -/
theorem scanStep_char (uvs : Nat → Nat) (i : Nat) (hi : i < 84) :
    scanStep uvs i =
      (match (ringKs i).filter (fun k => decide (uvs k = uvs i)) with
        | [] => StepRes.deadEnd
        | [j] => StepRes.next (j ^^^ 1)
        | _ :: _ :: _ => StepRes.branch) := by
  have hni : i ∉ ringKs i := fun hmem => ((ringKs_mem_iff i i hi hi).mp hmem).1 rfl
  exact scanGo_base uvs i (ringKs i) hni

/-- Helper: a next-move step comes from a unique ring match. -/
theorem scanStep_next_facts (uvs : Nat → Nat) (i m : Nat) (hi : i < 84)
    (h : scanStep uvs i = StepRes.next m) :
    (m ^^^ 1) ∈ ringKs i ∧ uvs (m ^^^ 1) = uvs i ∧
      ∀ k, k ∈ ringKs i → uvs k = uvs i → k = m ^^^ 1 := by
  rw [scanStep_char uvs i hi] at h
  cases hf : (ringKs i).filter (fun k => decide (uvs k = uvs i)) with
  | nil => rw [hf] at h; cases h
  | cons j tl =>
    cases tl with
    | nil =>
      rw [hf] at h
      cases h
      rw [xor_xor_one]
      have hj2 := List.mem_filter.mp
        (by rw [hf]; exact List.mem_cons_self j [] :
          j ∈ (ringKs i).filter (fun k => decide (uvs k = uvs i)))
      refine ⟨hj2.1, by simpa using hj2.2, ?_⟩
      intro k hk hke
      have hkf : k ∈ (ringKs i).filter (fun k => decide (uvs k = uvs i)) :=
        List.mem_filter.mpr ⟨hk, by simp [hke]⟩
      rw [hf] at hkf
      simpa using hkf
    | cons j2 tl2 => rw [hf] at h; cases h

/-- Helper: a next-move lands below 84. -/
theorem scanStep_next_lt (uvs : Nat → Nat) (i m : Nat) (hi : i < 84)
    (h : scanStep uvs i = StepRes.next m) : m < 84 := by
  obtain ⟨hmem, -, -⟩ := scanStep_next_facts uvs i m hi h
  have h84 := ringKs_mem_lt i (m ^^^ 1) hmem
  have h2 := xor1_lt (m ^^^ 1) h84
  rwa [xor_xor_one] at h2

/-- Helper: the traversal successor is injective, the heart of the
termination argument: two distinct positions moving to the same place
would each be the other's second match, a BRANCH. -/
theorem scanStep_next_inj (uvs : Nat → Nat) (i1 i2 m : Nat) (h1i : i1 < 84)
    (h2i : i2 < 84) (h1 : scanStep uvs i1 = StepRes.next m)
    (h2 : scanStep uvs i2 = StepRes.next m) : i1 = i2 := by
  obtain ⟨hm1, he1, hu1⟩ := scanStep_next_facts uvs i1 m h1i h1
  obtain ⟨hm2, he2, hu2⟩ := scanStep_next_facts uvs i2 m h2i h2
  by_contra hne
  have hp1 := ((ringKs_mem_iff i1 (m ^^^ 1) h1i (ringKs_mem_lt _ _ hm1)).mp hm1).2
  have hp2 := ((ringKs_mem_iff i2 (m ^^^ 1) h2i (ringKs_mem_lt _ _ hm2)).mp hm2).2
  have hmem12 : i2 ∈ ringKs i1 :=
    (ringKs_mem_iff i1 i2 h1i h2i).mpr ⟨fun h => hne h.symm, by omega⟩
  have hmem21 : i1 ∈ ringKs i2 :=
    (ringKs_mem_iff i2 i1 h2i h1i).mpr ⟨hne, by omega⟩
  have h12 : i2 = m ^^^ 1 := hu1 i2 hmem12 (he1.symm.trans he2).symm
  have h21 : i1 = m ^^^ 1 := hu2 i1 hmem21 (he1.symm.trans he2)
  exact hne (h21.trans h12.symm)

/-- Helper: inverting the isolated step move. -/
theorem stepNext_some (uvs : Nat → Nat) (k m : Nat)
    (h : stepNext uvs k = some m) : scanStep uvs k = StepRes.next m := by
  rw [stepNext] at h
  cases hsc : scanStep uvs k with
  | branch => rw [hsc] at h; cases h
  | deadEnd => rw [hsc] at h; cases h
  | next m2 =>
    rw [hsc] at h
    injection h with h2
    rw [h2]

/-- Helper: the traversal iterate unfolded from the front. -/
theorem iterPos_succ_front (uvs : Nat → Nat) (i : Nat) :
    ∀ t, iterPos uvs i (t + 1) =
      (match stepNext uvs i with
        | some m => iterPos uvs m t
        | none => none)
  | 0 => by
    cases h : stepNext uvs i <;> simp [iterPos, h]
  | t + 1 => by
    rw [iterPos, iterPos_succ_front uvs i t]
    cases h : stepNext uvs i with
    | none => simp
    | some m => simp [iterPos]

/-- Helper: once the traversal is known to stop within the fuel, the
cycle-following loop returns a code. -/
theorem followCycle_isSome_of_stops (uvs : Nat → Nat) :
    ∀ (t i n f : Nat), t < f → stopsAt uvs i t → (followCycle uvs f i n).isSome
  | 0, i, n, f, hf, hst => by
    obtain ⟨k, hk, hcase⟩ := hst
    rw [iterPos] at hk
    injection hk with hk
    subst hk
    obtain ⟨f2, rfl⟩ : ∃ f2, f = f2 + 1 := ⟨f - 1, by omega⟩
    rcases hcase with hbr | hde | hnx
    · simp [followCycle, hbr]
    · simp [followCycle, hde]
    · simp [followCycle, hnx]
  | t + 1, i, n, f, hf, hst => by
    obtain ⟨k, hk, hcase⟩ := hst
    rw [iterPos_succ_front] at hk
    cases hs : stepNext uvs i with
    | none => rw [hs] at hk; cases hk
    | some m =>
      rw [hs] at hk
      have hsc := stepNext_some uvs i m hs
      obtain ⟨f2, rfl⟩ : ∃ f2, f = f2 + 1 := ⟨f - 1, by omega⟩
      simp only [followCycle, hsc]
      by_cases hm0 : m = 0
      · rw [if_pos hm0]
        simp
      · rw [if_neg hm0]
        exact followCycle_isSome_of_stops uvs t m (n + 1) f2 (by omega) ⟨k, hk, hcase⟩

/-- Helper: from position 0 the traversal always stops within 84 steps: by
injectivity of the step successor the visited positions stay distinct until
the walk returns to 0, and only 84 positions exist. -/
theorem stops_exists (uvs : Nat → Nat) : ∃ t, t < 84 ∧ stopsAt uvs 0 t := by
  by_contra hcon
  push_neg at hcon
  have hvals : ∀ t, t ≤ 84 → ∃ x, iterPos uvs 0 t = some x ∧ x < 84 := by
    intro t
    induction t with
    | zero => exact fun _ => ⟨0, rfl, by norm_num⟩
    | succ t ih =>
      intro ht
      obtain ⟨x, hx, hx84⟩ := ih (by omega)
      cases hsc : scanStep uvs x with
      | branch => exact absurd ⟨x, hx, Or.inl hsc⟩ (hcon t (by omega))
      | deadEnd => exact absurd ⟨x, hx, Or.inr (Or.inl hsc)⟩ (hcon t (by omega))
      | next m =>
        by_cases hm0 : m = 0
        · subst hm0
          exact absurd ⟨x, hx, Or.inr (Or.inr hsc)⟩ (hcon t (by omega))
        · refine ⟨m, ?_, scanStep_next_lt uvs x m hx84 hsc⟩
          rw [iterPos, hx]
          simp [stepNext, hsc]
  have key : ∀ a2 b2, a2 < b2 → b2 ≤ 84 →
      iterPos uvs 0 a2 = iterPos uvs 0 b2 → False := by
    intro a2 b2 hlt hb2 hiter
    have hback : ∀ k, k ≤ a2 → iterPos uvs 0 (a2 - k) = iterPos uvs 0 (b2 - k) := by
      intro k
      induction k with
      | zero => exact fun _ => by simpa using hiter
      | succ k ihk =>
        intro hk
        have hE := ihk (by omega)
        obtain ⟨x, hx, hx84⟩ := hvals (a2 - k) (by omega)
        have ha2k : a2 - k = (a2 - (k + 1)) + 1 := by omega
        have hb2k : b2 - k = (b2 - (k + 1)) + 1 := by omega
        have hxa := hx
        rw [ha2k, iterPos] at hxa
        obtain ⟨k1, hk1, hk1s⟩ := Option.bind_eq_some.mp hxa
        have hx2 : iterPos uvs 0 (b2 - k) = some x := by rw [← hE, hx]
        rw [hb2k, iterPos] at hx2
        obtain ⟨k2, hk2, hk2s⟩ := Option.bind_eq_some.mp hx2
        obtain ⟨k1v, hk1v, hk1v84⟩ := hvals (a2 - (k + 1)) (by omega)
        obtain ⟨k2v, hk2v, hk2v84⟩ := hvals (b2 - (k + 1)) (by omega)
        rw [hk1v] at hk1
        injection hk1 with hk1
        subst hk1
        rw [hk2v] at hk2
        injection hk2 with hk2
        subst hk2
        have hinj := scanStep_next_inj uvs k1v k2v x hk1v84 hk2v84
          (stepNext_some uvs _ _ hk1s) (stepNext_some uvs _ _ hk2s)
        rw [hk1v, hk2v, hinj]
    have h0d := hback a2 (le_refl a2)
    rw [Nat.sub_self] at h0d
    have h0d2 : iterPos uvs 0 (b2 - a2) = some 0 := by
      rw [← h0d]
      rfl
    have hd1 : b2 - a2 = (b2 - a2 - 1) + 1 := by omega
    rw [hd1, iterPos] at h0d2
    obtain ⟨k0, hk0, hk0s⟩ := Option.bind_eq_some.mp h0d2
    exact hcon (b2 - a2 - 1) (by omega)
      ⟨k0, hk0, Or.inr (Or.inr (stepNext_some uvs _ _ hk0s))⟩
  have hmap : ∀ t ∈ Finset.range 85, (iterPos uvs 0 t).getD 0 ∈ Finset.range 84 := by
    intro t ht
    simp only [Finset.mem_range] at ht ⊢
    obtain ⟨x, hx, hx84⟩ := hvals t (by omega)
    rw [hx]
    simpa using hx84
  obtain ⟨a, ha, b, hb, hab, heq⟩ :=
    Finset.exists_ne_map_eq_of_card_lt_of_maps_to (by simp) hmap
  simp only [Finset.mem_range] at ha hb
  obtain ⟨xa, hxa, -⟩ := hvals a (by omega)
  obtain ⟨xb, hxb, -⟩ := hvals b (by omega)
  rw [hxa, hxb] at heq
  simp only [Option.getD_some] at heq
  have hiter : iterPos uvs 0 a = iterPos uvs 0 b := by rw [hxa, hxb, heq]
  rcases Nat.lt_or_ge a b with hlt | hge
  · exact key a b hlt (by omega) hiter
  · have hlt2 : b < a := by omega
    exact key b a hlt2 (by omega) hiter.symm

/-- Claim C9: verify always terminates with one of the seven result codes;
in particular the cycle-following do/while loop cannot run forever — within
at most 84 iterations it either returns to index 0 or exits with BRANCH or
DEAD_END. -/
theorem C9_terminates (nonces : Nat → Nat) (buf : List Nat) (edgebits : Nat) :
    (verify nonces buf edgebits).isSome := by
  simp only [verify]
  cases hroc : rangeOrderCheck nonces (2 ^ edgebits - 1) with
  | some e => simp
  | none =>
    by_cases hx : xorCheck (mkUvs (siphash_setkeys buf) nonces (2 ^ edgebits - 1)) ≠ 0
    · rw [if_pos hx]
      simp
    · rw [if_neg hx]
      obtain ⟨t, ht, hst⟩ :=
        stops_exists (mkUvs (siphash_setkeys buf) nonces (2 ^ edgebits - 1))
      exact followCycle_isSome_of_stops _ t 0 0 84 ht hst

/-- Helper: with partition-parity uvs values, the matches inside the scan
ring are exactly the matches among all other 83 positions. -/
theorem ring_filter_perm (uvs : Nat → Nat) (i : Nat) (hi : i < 84)
    (hpar : ∀ m, uvs m % 2 = m % 2) :
    ((ringKs i).filter (fun k => decide (uvs k = uvs i))).Perm (matchesAll uvs i) := by
  refine (List.perm_ext_iff_of_nodup (List.Nodup.filter _ (ringKs_nodup i))
    (List.Nodup.filter _ (List.nodup_range 84))).mpr ?_
  intro k
  simp only [matchesAll, List.mem_filter, List.mem_range, Bool.and_eq_true,
    decide_eq_true_eq]
  constructor
  · rintro ⟨hmem, hval⟩
    have hk84 := ringKs_mem_lt i k hmem
    have hne := ((ringKs_mem_iff i k hi hk84).mp hmem).1
    exact ⟨hk84, hne, hval⟩
  · rintro ⟨hk84, hne, hval⟩
    have h1 := hpar k
    have h2 := hpar i
    rw [hval] at h1
    exact ⟨(ringKs_mem_iff i k hi hk84).mpr ⟨hne, by omega⟩, hval⟩

/-- Claim C6: for inputs passing the range, order and xor checks, verify
runs the cycle traversal from index 0, and each step behaves exactly as
specified over the matches among all other 83 positions (equality across
partitions being impossible, the even-offset ring scan sees the very same
matches): zero matches exit DEAD_END, a unique match j moves to j XOR 1
counting one edge, two or more matches exit BRANCH, and on return to index
0 the result is OK exactly when 42 edges were traversed, else SHORT_CYCLE. -/
theorem C6_traversal (nonces : Nat → Nat) (buf : List Nat) (edgebits : Nat)
    (hrange : rangeOrderCheck nonces (2 ^ edgebits - 1) = none)
    (hxor : xorCheck (mkUvs (siphash_setkeys buf) nonces (2 ^ edgebits - 1)) = 0) :
    verify nonces buf edgebits =
        followCycle (mkUvs (siphash_setkeys buf) nonces (2 ^ edgebits - 1)) 84 0 0 ∧
      (∀ i, i < 84 →
        (matchesAll (mkUvs (siphash_setkeys buf) nonces (2 ^ edgebits - 1)) i = [] →
          scanStep (mkUvs (siphash_setkeys buf) nonces (2 ^ edgebits - 1)) i =
            StepRes.deadEnd) ∧
        (∀ j, matchesAll (mkUvs (siphash_setkeys buf) nonces (2 ^ edgebits - 1)) i =
            [j] →
          scanStep (mkUvs (siphash_setkeys buf) nonces (2 ^ edgebits - 1)) i =
            StepRes.next (j ^^^ 1)) ∧
        (2 ≤ (matchesAll (mkUvs (siphash_setkeys buf) nonces (2 ^ edgebits - 1))
            i).length →
          scanStep (mkUvs (siphash_setkeys buf) nonces (2 ^ edgebits - 1)) i =
            StepRes.branch)) ∧
      (∀ f i n, followCycle (mkUvs (siphash_setkeys buf) nonces (2 ^ edgebits - 1))
          (f + 1) i n =
        (match scanStep (mkUvs (siphash_setkeys buf) nonces (2 ^ edgebits - 1)) i with
          | StepRes.branch => some VCode.POW_BRANCH
          | StepRes.deadEnd => some VCode.POW_DEAD_END
          | StepRes.next m =>
            if m = 0 then
              some (if n + 1 = 42 then VCode.POW_OK else VCode.POW_SHORT_CYCLE)
            else followCycle (mkUvs (siphash_setkeys buf) nonces (2 ^ edgebits - 1))
              f m (n + 1))) := by
  refine ⟨?_, ?_, fun f i n => rfl⟩
  · simp only [verify, hrange]
    rw [if_neg (by simp [hxor])]
  · intro i hi
    have hperm := ring_filter_perm
      (mkUvs (siphash_setkeys buf) nonces (2 ^ edgebits - 1)) i hi
      (mkUvs_parity (siphash_setkeys buf) nonces (2 ^ edgebits - 1))
    refine ⟨?_, ?_, ?_⟩
    · intro hempty
      rw [hempty] at hperm
      have hnil := List.Perm.eq_nil hperm
      rw [scanStep_char _ i hi, hnil]
    · intro j hone
      rw [hone] at hperm
      have hsing := List.perm_singleton.mp hperm
      rw [scanStep_char _ i hi, hsing]
    · intro htwo
      have hlen := hperm.length_eq
      rw [scanStep_char _ i hi]
      rcases hf : (ringKs i).filter (fun k => decide
        (mkUvs (siphash_setkeys buf) nonces (2 ^ edgebits - 1) k =
          mkUvs (siphash_setkeys buf) nonces (2 ^ edgebits - 1) i)) with
        _ | ⟨x, _ | ⟨y, tl⟩⟩
      · rw [hf] at hlen
        simp at hlen
        omega
      · rw [hf] at hlen
        simp at hlen
        omega
      · rfl

/-- Claim C6 witness: the traversal characterization instantiated on a
concrete 42-nonce input under the all-zero key at edgebits 6 that passes
the range, order and xor checks. -/
theorem C6_witness :
    verify wNonces wZeroBuf 6 =
        followCycle (mkUvs (siphash_setkeys wZeroBuf) wNonces (2 ^ 6 - 1)) 84 0 0 ∧
      (∀ i, i < 84 →
        (matchesAll (mkUvs (siphash_setkeys wZeroBuf) wNonces (2 ^ 6 - 1)) i = [] →
          scanStep (mkUvs (siphash_setkeys wZeroBuf) wNonces (2 ^ 6 - 1)) i =
            StepRes.deadEnd) ∧
        (∀ j, matchesAll (mkUvs (siphash_setkeys wZeroBuf) wNonces (2 ^ 6 - 1)) i =
            [j] →
          scanStep (mkUvs (siphash_setkeys wZeroBuf) wNonces (2 ^ 6 - 1)) i =
            StepRes.next (j ^^^ 1)) ∧
        (2 ≤ (matchesAll (mkUvs (siphash_setkeys wZeroBuf) wNonces (2 ^ 6 - 1))
            i).length →
          scanStep (mkUvs (siphash_setkeys wZeroBuf) wNonces (2 ^ 6 - 1)) i =
            StepRes.branch)) ∧
      (∀ f i n, followCycle (mkUvs (siphash_setkeys wZeroBuf) wNonces (2 ^ 6 - 1))
          (f + 1) i n =
        (match scanStep (mkUvs (siphash_setkeys wZeroBuf) wNonces (2 ^ 6 - 1)) i with
          | StepRes.branch => some VCode.POW_BRANCH
          | StepRes.deadEnd => some VCode.POW_DEAD_END
          | StepRes.next m =>
            if m = 0 then
              some (if n + 1 = 42 then VCode.POW_OK else VCode.POW_SHORT_CYCLE)
            else followCycle (mkUvs (siphash_setkeys wZeroBuf) wNonces (2 ^ 6 - 1))
              f m (n + 1))) :=
  C6_traversal wNonces wZeroBuf 6 (by decide) (by decide)
